import Mathlib

/-!
Shallow embedding of the advisense-dsl expression parser and evaluator.

Source files embedded here:
- `src/ast/NumberNode.ts` (leaf AST node)
- `src/ast/BinaryOperationNode.ts` (internal AST node: evaluate / print / serialize)
- `src/parser/Parser.ts` (isValid, tokenize, shunting-yard conversion, tree build,
  deserialize)

Modelling conventions:
- JavaScript `number` (IEEE float64) is modelled as `JSNum`: an exact rational
  together with the special values `Infinity`, `-Infinity` and `NaN`.  Rounding of
  float64 arithmetic and the negative zero are not modelled; every concrete value
  appearing in this development is exactly representable, and the one place where
  `-0` could matter (the `rightVal === 0` guard of division) treats `-0` and `0`
  alike in JavaScript, matching the single zero of `ℚ`.
- TypeScript exceptions are modelled by `Except Err`.
- The TypeScript `Operator` type is a union of seven one-character strings, but the
  tree builder inserts the token with a bare `tk as Operator` cast, so the operator
  field is modelled as `Char` and `evaluate` keeps the source's defensive
  `default:` branch (`UnknownOperator`).
-/

/-- Addition on `ℚ` through `mkRat`, which the kernel can evaluate (the library's
`Rat.add` does not reduce definitionally); proved equal to `+` in `qAdd_eq`. -/
def qAdd (a b : ℚ) : ℚ := mkRat (a.num * b.den + b.num * a.den) (a.den * b.den)

/-- Subtraction on `ℚ` through `mkRat`; proved equal to `-` in `qSub_eq`. -/
def qSub (a b : ℚ) : ℚ := mkRat (a.num * b.den - b.num * a.den) (a.den * b.den)

/-- Multiplication on `ℚ` through `mkRat`; proved equal to `*` in `qMul_eq`. -/
def qMul (a b : ℚ) : ℚ := mkRat (a.num * b.num) (a.den * b.den)

/-- Division on `ℚ` through `mkRat` (with the sign moved into the numerator);
proved equal to `/` in `qDiv_eq`. -/
def qDiv (a b : ℚ) : ℚ :=
  if (a.den : ℤ) * b.num < 0 then mkRat (-(a.num * (b.den : ℤ))) (-((a.den : ℤ) * b.num)).toNat
  else mkRat (a.num * (b.den : ℤ)) ((a.den : ℤ) * b.num).toNat

/-- JavaScript number: an exact rational plus the IEEE special values. -/
inductive JSNum : Type
  | fin (q : ℚ)
  | inf
  | negInf
  | nan
deriving DecidableEq

/-- Result type of `evaluate` in the source: `number | boolean`. -/
inductive Value : Type
  | num (n : JSNum)
  | bool (b : Bool)
deriving DecidableEq

/-- JavaScript `ToNumber` coercion as it applies to `number | boolean` operands:
booleans coerce to `0`/`1`, numbers are unchanged. -/
def toNumber : Value → JSNum
  | .num n => n
  | .bool b => if b then .fin 1 else .fin 0

/-- JavaScript `+` on numbers (float64 addition, modelled exactly on rationals). -/
def jsAdd : JSNum → JSNum → JSNum
  | .nan, _ => .nan
  | _, .nan => .nan
  | .inf, .negInf => .nan
  | .negInf, .inf => .nan
  | .inf, _ => .inf
  | _, .inf => .inf
  | .negInf, _ => .negInf
  | _, .negInf => .negInf
  | .fin a, .fin b => .fin (qAdd a b)

/-- JavaScript `-` on numbers. -/
def jsSub : JSNum → JSNum → JSNum
  | .nan, _ => .nan
  | _, .nan => .nan
  | .inf, .inf => .nan
  | .negInf, .negInf => .nan
  | .inf, _ => .inf
  | _, .inf => .negInf
  | .negInf, _ => .negInf
  | _, .negInf => .inf
  | .fin a, .fin b => .fin (qSub a b)

/-- JavaScript `*` on numbers. -/
def jsMul : JSNum → JSNum → JSNum
  | .nan, _ => .nan
  | _, .nan => .nan
  | .inf, .inf => .inf
  | .inf, .negInf => .negInf
  | .negInf, .inf => .negInf
  | .negInf, .negInf => .inf
  | .inf, .fin b => if b = 0 then .nan else if 0 < b then .inf else .negInf
  | .fin a, .inf => if a = 0 then .nan else if 0 < a then .inf else .negInf
  | .negInf, .fin b => if b = 0 then .nan else if 0 < b then .negInf else .inf
  | .fin a, .negInf => if a = 0 then .nan else if 0 < a then .negInf else .inf
  | .fin a, .fin b => .fin (qMul a b)

/-- JavaScript `/` on numbers (division by zero yields `±Infinity` or `NaN`,
never an exception at this level). -/
def jsDiv : JSNum → JSNum → JSNum
  | .nan, _ => .nan
  | _, .nan => .nan
  | .inf, .inf => .nan
  | .inf, .negInf => .nan
  | .negInf, .inf => .nan
  | .negInf, .negInf => .nan
  | .inf, .fin b => if b < 0 then .negInf else .inf
  | .negInf, .fin b => if b < 0 then .inf else .negInf
  | .fin _, .inf => .fin 0
  | .fin _, .negInf => .fin 0
  | .fin a, .fin b =>
    if b = 0 then (if 0 < a then .inf else if a < 0 then .negInf else .nan)
    else .fin (qDiv a b)

/-- JavaScript `<` on numbers: any comparison involving `NaN` is false. -/
def jsLt : JSNum → JSNum → Bool
  | .nan, _ => false
  | _, .nan => false
  | .inf, _ => false
  | _, .inf => true
  | .negInf, .negInf => false
  | .negInf, .fin _ => true
  | .fin _, .negInf => false
  | .fin a, .fin b => a < b

/-- JavaScript `>`: `a > b` is evaluated as the less-than comparison with the
arguments swapped. -/
def jsGt (a b : JSNum) : Bool := jsLt b a

/-- JavaScript strict equality `===` on `number | boolean` values: different
runtime types are never equal, `NaN` is not equal to anything (itself included). -/
def strictEq : Value → Value → Bool
  | .bool a, .bool b => a == b
  | .num (.fin a), .num (.fin b) => a == b
  | .num .inf, .num .inf => true
  | .num .negInf, .num .negInf => true
  | _, _ => false

/-- Error taxonomy of the pipeline, one constructor per `throw new Error(...)`
site family in the source. -/
inductive Err : Type
  | invalidParentheses
  | unexpectedToken (c : Char) (pos : ℕ)
  | insufficientOperands
  | invalidExpression
  | divisionByZero
  | unknownOperator (c : Char)
deriving DecidableEq

/-- AST of the source: `NumberNode` (leaf, stores a number) and
`BinaryOperationNode` (left child, right child, operator character). -/
inductive ASTNode : Type
  | numberNode (value : JSNum)
  | binaryOperationNode (left right : ASTNode) (operator : Char)
deriving DecidableEq

/-- Translation of `BinaryOperationNode.evaluate` / `NumberNode.evaluate`:
evaluate both children (left first), then dispatch on the operator; `/` first
checks `rightVal === 0` and throws DivisionByZero, the comparison operators
return booleans, and an operator outside the seven-character set hits the
defensive `default:` branch. -/
def evaluate : ASTNode → Except Err Value
  | .numberNode v => .ok (.num v)
  | .binaryOperationNode l r op =>
    match evaluate l with
    | .error e => .error e
    | .ok leftVal =>
      match evaluate r with
      | .error e => .error e
      | .ok rightVal =>
        match op with
        | '+' => .ok (.num (jsAdd (toNumber leftVal) (toNumber rightVal)))
        | '-' => .ok (.num (jsSub (toNumber leftVal) (toNumber rightVal)))
        | '*' => .ok (.num (jsMul (toNumber leftVal) (toNumber rightVal)))
        | '/' =>
          if rightVal = Value.num (.fin 0) then .error .divisionByZero
          else .ok (.num (jsDiv (toNumber leftVal) (toNumber rightVal)))
        | '<' => .ok (.bool (jsLt (toNumber leftVal) (toNumber rightVal)))
        | '>' => .ok (.bool (jsGt (toNumber leftVal) (toNumber rightVal)))
        | '=' => .ok (.bool (strictEq leftVal rightVal))
        | _ => .error (.unknownOperator op)

/-- Equality of `Except` values is decidable when both components' is; needed to
run concrete pipeline computations inside `decide`. -/
instance {ε α : Type _} [DecidableEq ε] [DecidableEq α] : DecidableEq (Except ε α) :=
  fun a b =>
    match a, b with
    | .error e, .error f => decidable_of_iff (e = f) (by simp)
    | .error _, .ok _ => isFalse (fun h => Except.noConfusion h)
    | .ok _, .error _ => isFalse (fun h => Except.noConfusion h)
    | .ok x, .ok y => decidable_of_iff (x = y) (by simp)

/-- Integer part of a nonnegative rational (a computable floor). -/
def ratIntPart (q : ℚ) : ℕ := q.num.toNat / q.den

/-- Decimal digits of the fractional part of a rational in `[0, 1)`; the fuel
bounds the number of produced digits (the expansion stops early at `0`).  Every
fractional value printed in this development has a short finite expansion. -/
def fracDigits : ℕ → ℚ → List Char
  | 0, _ => []
  | n + 1, q =>
    if q = 0 then []
    else
      let q10 := qMul q 10
      let d := ratIntPart q10
      Char.ofNat (48 + d) :: fracDigits n (qSub q10 d)

/-- Rendering of a `JSNum` as JavaScript `Number.prototype.toString` renders it:
`NaN` / `Infinity` / `-Infinity` for the special values, and the (shortest
round-trip) decimal form otherwise — modelled as the exact decimal expansion,
which agrees with JavaScript on every value with a short finite expansion. -/
def numToString : JSNum → String
  | .nan => "NaN"
  | .inf => "Infinity"
  | .negInf => "-Infinity"
  | .fin q =>
    let sign := if q < 0 then "-" else ""
    let a := if q < 0 then -q else q
    let ip := ratIntPart a
    let fr := qSub a ip
    sign ++ toString ip ++ (if fr = 0 then "" else "." ++ String.mk (fracDigits 100 fr))

/-- Translation of `NumberNode.print` / `BinaryOperationNode.print`: a leaf
prints its value, an internal node prints
`"(" + left.print() + " " + operator + " " + right.print() + ")"`. -/
def printNode : ASTNode → String
  | .numberNode v => numToString v
  | .binaryOperationNode l r op =>
    "(" ++ printNode l ++ " " ++ op.toString ++ " " ++ printNode r ++ ")"

/-- Serialized AST shape from `src/types.ts`: a tagged variant mirroring the tree. -/
inductive SerializedASTNode : Type
  | numberNode (value : JSNum)
  | binaryOperationNode (operator : Char) (left right : SerializedASTNode)
deriving DecidableEq

/-- Translation of `NumberNode.serialize` / `BinaryOperationNode.serialize`. -/
def serialize : ASTNode → SerializedASTNode
  | .numberNode v => .numberNode v
  | .binaryOperationNode l r op => .binaryOperationNode op (serialize l) (serialize r)

/-- Translation of `Parser.deserialize`: pattern match on the tag, rebuild the
node; the `default:` throw of the source is unreachable because the serialized
variant type is closed. -/
def deserialize : SerializedASTNode → ASTNode
  | .numberNode v => .numberNode v
  | .binaryOperationNode op l r => .binaryOperationNode (deserialize l) (deserialize r) op





/-- Character class `[0-9.]` of the tokenizer's number scanner. -/
def isNumChar (c : Char) : Bool := c.isDigit || c = '.'

/-- Character class `[+\-*/()<>=]` of one-character symbol tokens. -/
def isSymChar (c : Char) : Bool :=
  c = '+' || c = '-' || c = '*' || c = '/' || c = '(' || c = ')' ||
    c = '<' || c = '>' || c = '='

/-- Whitespace removed by the source's `expr.replace(/\s+/g, '')`; the ASCII
whitespace characters are modelled (the inputs of this development are ASCII). -/
def isWSChar (c : Char) : Bool :=
  c = ' ' || c = '\t' || c = '\n' || c = '\r' || c = '\u000B' || c = '\u000C'

/-- Whitespace stripping performed at the top of `Parser.parse`. -/
def stripWS (s : String) : String := String.mk (s.data.filter (fun c => !isWSChar c))

/-- Loop of `Parser.isValid`: a stack of open parens; `(` pushes, `)` pops a
matching `(` (reaching `)` with an empty stack fails), every other character is
ignored; at the end the stack must be empty. -/
def isValidGo : List Char → List Char → Bool
  | [], stack => stack.isEmpty
  | c :: cs, stack =>
    if c = '(' then isValidGo cs ('(' :: stack)
    else if c = ')' then
      match stack with
      | top :: rest => if top = '(' then isValidGo cs rest else false
      | [] => false
    else isValidGo cs stack

/-- Translation of `Parser.isValid`. -/
def isValid (s : String) : Bool := isValidGo s.data []

/-- Numeric value of a digit list read in base 10. -/
def digitsVal (ds : List Char) : ℕ := ds.foldl (fun acc c => 10 * acc + (c.toNat - 48)) 0

/-- JavaScript `parseFloat` restricted to a run of `[0-9.]` characters: the
longest valid decimal prefix `digits [ '.' digits ]` is converted; a run with no
digits before a possible first dot and none right after it (such as `"."`)
yields `NaN`; characters of the run after the valid prefix are ignored. -/
def parseRun (run : List Char) : JSNum :=
  let d1 := run.takeWhile Char.isDigit
  let rest := run.dropWhile Char.isDigit
  match rest with
  | '.' :: rest2 =>
    let d2 := rest2.takeWhile Char.isDigit
    if d1.isEmpty && d2.isEmpty then .nan
    else .fin (mkRat (digitsVal d1 * 10 ^ d2.length + digitsVal d2) (10 ^ d2.length))
  | _ => if d1.isEmpty then .nan else .fin ((digitsVal d1 : ℚ))

/-- Token stream elements: `(number | string)[]` in the source, the string case
always holding a single character. -/
inductive Token : Type
  | num (n : JSNum)
  | sym (c : Char)
deriving DecidableEq

/-- Scanning loop of `Parser.tokenize`, fused to one character per step so that
the recursion is structural: `acc` holds (reversed) the number run currently
being scanned by the source's inner `while`, and is flushed through `parseRun`
when the run ends.  The theorem `tokenizeGo_num` recovers the source's
run-at-once recurrence from this definition. -/
def tokenizeGo : List Char → ℕ → List Char → Except Err (List Token)
  | [], _, [] => .ok []
  | [], _, a :: as => .ok [.num (parseRun ((a :: as).reverse))]
  | c :: cs, i, acc =>
    if isNumChar c then tokenizeGo cs (i + 1) (c :: acc)
    else
      let tail : Except Err (List Token) :=
        if isSymChar c then (tokenizeGo cs (i + 1) []).map (fun ts => .sym c :: ts)
        else .error (.unexpectedToken c i)
      match acc with
      | [] => tail
      | a :: as => tail.map (fun ts => .num (parseRun ((a :: as).reverse)) :: ts)

/-- Translation of `Parser.tokenize` (defined on the whitespace-stripped string). -/
def tokenize (s : String) : Except Err (List Token) := tokenizeGo s.data 0 []

/-- Translation of `Parser.isVaildOp` (source name kept, typo included): the
seven operator characters. -/
def isVaildOp (t : Char) : Bool :=
  t = '+' || t = '-' || t = '*' || t = '/' || t = '<' || t = '>' || t = '='

/-- Translation of `Parser.precedence`: `+` and `-` map to 1, every other
character (the comparisons included) to 2. -/
def precedence (op : Char) : ℕ := if op = '+' || op = '-' then 1 else 2

/-- Inner `while` of the operator case of the shunting-yard loop: pop operators
of precedence ≥ the incoming operator's; returns (popped operators in pop
order, remaining stack). -/
def popWhileGE (c : Char) : List Char → List Char × List Char
  | [] => ([], [])
  | t :: rest =>
    if isVaildOp t && precedence t ≥ precedence c then
      let p := popWhileGE c rest
      (t :: p.1, p.2)
    else ([], t :: rest)

/-- Inner `while` of the `)` case: pop until the top is `(` or the stack is
empty, leaving the `(` in place. -/
def popUntilLParen : List Char → List Char × List Char
  | [] => ([], [])
  | t :: rest =>
    if t = '(' then ([], t :: rest)
    else
      let p := popUntilLParen rest
      (t :: p.1, p.2)

/-- Shunting-yard loop of `Parser.parse`: `out` is the output queue, `ops` the
operator stack; numbers go to the queue, operators pop by precedence then push,
`(` pushes, `)` pops until `(` and then discards the `(` (`List.drop 1` is the
source's unchecked `opStack.pop()`). -/
def shuntGo (out : List Token) (ops : List Char) : List Token → List Token × List Char
  | [] => (out, ops)
  | tk :: ts =>
    match tk with
    | .num n => shuntGo (out ++ [.num n]) ops ts
    | .sym c =>
      if isVaildOp c then
        let p := popWhileGE c ops
        shuntGo (out ++ p.1.map Token.sym) (c :: p.2) ts
      else if c = '(' then shuntGo out ('(' :: ops) ts
      else
        let p := popUntilLParen ops
        shuntGo (out ++ p.1.map Token.sym) (p.2.drop 1) ts

/-- Postfix conversion: run the shunting-yard loop from the empty state, then
drain the remaining operator stack into the output queue. -/
def shunt (toks : List Token) : List Token :=
  let s := shuntGo [] [] toks
  s.1 ++ s.2.map Token.sym

/-- RPN-to-AST loop of `Parser.parse`: a number pushes a `NumberNode`; any other
token pops the right operand first, then the left (failing with
InsufficientOperands when fewer than two nodes are available) and pushes a
`BinaryOperationNode`. -/
def buildGo (stack : List ASTNode) : List Token → Except Err (List ASTNode)
  | [] => .ok stack
  | tk :: ts =>
    match tk with
    | .num n => buildGo (.numberNode n :: stack) ts
    | .sym c =>
      match stack with
      | right :: left :: rest => buildGo (.binaryOperationNode left right c :: rest) ts
      | _ => .error .insufficientOperands

/-- Final check of `Parser.parse`: after the RPN loop exactly one node must
remain on the AST stack. -/
def buildAST (toks : List Token) : Except Err ASTNode :=
  match buildGo [] toks with
  | .ok [t] => .ok t
  | .ok _ => .error .invalidExpression
  | .error e => .error e

/-- Translation of `Parser.parse`: strip all whitespace, reject unbalanced
parentheses, then tokenize → shunting-yard → tree build. -/
def parse (expr : String) : Except Err ASTNode :=
  let s := stripWS expr
  if !isValid s then .error .invalidParentheses
  else
    match tokenize s with
    | .error e => .error e
    | .ok toks => buildAST (shunt toks)






/-- Postfix (RPN) flattening of an AST: left subtree, right subtree, operator. -/
def postfixOf : ASTNode → List Token
  | .numberNode n => [.num n]
  | .binaryOperationNode l r c => postfixOf l ++ postfixOf r ++ [.sym c]

/-- Modelled from the spec: parse trees of the left-associative precedence
grammar `E → E (+|-) T | T`, `T → T (*|/) F | F`, `F → number | ( E )`, as a
relation between a token sequence and the AST the spec's reading ("strict
left-associative, `*`/`/` bind tighter than `+`/`-`") assigns to it.  The first
index is the grammar level: 0 for `E`, 1 for `T`, 2 for `F`. -/
inductive SpecReads : ℕ → List Token → ASTNode → Prop
  | num (n : JSNum) : SpecReads 2 [.num n] (.numberNode n)
  | paren (ts : List Token) (t : ASTNode) :
      SpecReads 0 ts t → SpecReads 2 (.sym '(' :: ts ++ [.sym ')']) t
  | tOfF (ts : List Token) (t : ASTNode) : SpecReads 2 ts t → SpecReads 1 ts t
  | eOfT (ts : List Token) (t : ASTNode) : SpecReads 1 ts t → SpecReads 0 ts t
  | addOp (ts1 : List Token) (l : ASTNode) (ts2 : List Token) (r : ASTNode) (c : Char) :
      c = '+' ∨ c = '-' → SpecReads 0 ts1 l → SpecReads 1 ts2 r →
      SpecReads 0 (ts1 ++ .sym c :: ts2) (.binaryOperationNode l r c)
  | mulOp (ts1 : List Token) (l : ASTNode) (ts2 : List Token) (r : ASTNode) (c : Char) :
      c = '*' ∨ c = '/' → SpecReads 1 ts1 l → SpecReads 2 ts2 r →
      SpecReads 1 (ts1 ++ .sym c :: ts2) (.binaryOperationNode l r c)

/-- Modelled from the spec: exact mathematical evaluation over `ℚ` of a tree
built from the four arithmetic operators, undefined (`none`) on division by
zero, on non-finite leaves and on non-arithmetic operators. -/
def exactEval : ASTNode → Option ℚ
  | .numberNode (.fin q) => some q
  | .numberNode _ => none
  | .binaryOperationNode l r c =>
    match exactEval l, exactEval r with
    | some a, some b =>
      if c = '+' then some (a + b)
      else if c = '-' then some (a - b)
      else if c = '*' then some (a * b)
      else if c = '/' then (if b = 0 then none else some (a / b))
      else none
    | _, _ => none

/-- Stack-shape invariant of the shunting-yard correctness proof: while a
grammar phrase of the given level is being converted, the operator stack below
the phrase's own pending operators must start this way. -/
def stackOK : ℕ → List Char → Prop
  | 0, S => S = [] ∨ ∃ S', S = '(' :: S'
  | 1, S => (S = [] ∨ ∃ S', S = '(' :: S') ∨ (∃ S', S = '+' :: S') ∨ ∃ S', S = '-' :: S'
  | _ + 2, _ => True

/-- Pending-operator invariant: the operators a converted phrase of the given
level may leave on the stack (in pop order they complete its postfix form). -/
def pendOK : ℕ → List Char → Prop
  | 0, P => ∀ c ∈ P, isVaildOp c = true
  | 1, P => ∀ c ∈ P, isVaildOp c = true ∧ precedence c = 2
  | _ + 2, P => P = []

/-- Projection of a character list to its parentheses. -/
def parenProj (cs : List Char) : List Char := cs.filter (fun c => c = '(' || c = ')')

/-- Characters a token contributes to the scanned text's symbol structure. -/
def tokChars : Token → List Char
  | .num _ => []
  | .sym c => [c]

/-- Projection of a token list to its parentheses. -/
def parenProjT (ts : List Token) : List Char := parenProj (ts.flatMap tokChars)

/-- Count of open parens. -/
def opens (cs : List Char) : ℕ := cs.count '('

/-- Count of close parens. -/
def closes (cs : List Char) : ℕ := cs.count ')'

/-- Balance property of a character sequence: no prefix closes more than it has
opened, and the totals agree. -/
def BalancedP (cs : List Char) : Prop :=
  (∀ p, p <+: cs → closes p ≤ opens p) ∧ opens cs = closes cs
theorem qAdd_eq (a b : ℚ) : qAdd a b = a + b := by
  have ha : ((a.den : ℚ)) ≠ 0 := Nat.cast_ne_zero.mpr a.den_nz
  have hb : ((b.den : ℚ)) ≠ 0 := Nat.cast_ne_zero.mpr b.den_nz
  rw [qAdd, Rat.mkRat_eq_div]
  conv_rhs => rw [← Rat.num_div_den a, ← Rat.num_div_den b]
  push_cast
  field_simp

theorem qSub_eq (a b : ℚ) : qSub a b = a - b := by
  have ha : ((a.den : ℚ)) ≠ 0 := Nat.cast_ne_zero.mpr a.den_nz
  have hb : ((b.den : ℚ)) ≠ 0 := Nat.cast_ne_zero.mpr b.den_nz
  rw [qSub, Rat.mkRat_eq_div]
  conv_rhs => rw [← Rat.num_div_den a, ← Rat.num_div_den b]
  push_cast
  field_simp
  ring

theorem qMul_eq (a b : ℚ) : qMul a b = a * b := by
  have ha : ((a.den : ℚ)) ≠ 0 := Nat.cast_ne_zero.mpr a.den_nz
  have hb : ((b.den : ℚ)) ≠ 0 := Nat.cast_ne_zero.mpr b.den_nz
  rw [qMul, Rat.mkRat_eq_div]
  conv_rhs => rw [← Rat.num_div_den a, ← Rat.num_div_den b]
  push_cast
  field_simp

theorem qDiv_eq (a b : ℚ) : qDiv a b = a / b := by
  have ha : ((a.den : ℚ)) ≠ 0 := Nat.cast_ne_zero.mpr a.den_nz
  have hb : ((b.den : ℚ)) ≠ 0 := Nat.cast_ne_zero.mpr b.den_nz
  rcases eq_or_ne b 0 with rfl | hb0
  · simp [qDiv]
  · have hbn : b.num ≠ 0 := Rat.num_ne_zero.mpr hb0
    have hbq : ((b.num : ℚ)) ≠ 0 := Int.cast_ne_zero.mpr hbn
    have h1 : (a.num : ℚ) = a * a.den := (div_eq_iff ha).mp (Rat.num_div_den a)
    have h2 : (b.num : ℚ) = b * b.den := (div_eq_iff hb).mp (Rat.num_div_den b)
    have key : ((a.num * b.den : ℤ) : ℚ) / ((a.den * b.num : ℤ) : ℚ) = a / b := by
      have hden : ((a.den * b.num : ℤ) : ℚ) ≠ 0 := by
        push_cast
        exact mul_ne_zero ha hbq
      rw [div_eq_div_iff hden hb0]
      push_cast
      rw [h1, h2]
      ring
    rw [qDiv]
    by_cases hd : (a.den : ℤ) * b.num < 0
    · rw [if_pos hd, Rat.mkRat_eq_div, ← key]
      have ht : (((-((a.den : ℤ) * b.num)).toNat : ℤ)) = -((a.den : ℤ) * b.num) :=
        Int.toNat_of_nonneg (by omega)
      rw [show (((-((a.den : ℤ) * b.num)).toNat : ℕ) : ℚ) = ((-((a.den : ℤ) * b.num) : ℤ) : ℚ) by
        exact_mod_cast congrArg (fun z : ℤ => (z : ℚ)) ht]
      push_cast
      rw [div_neg, neg_div, neg_neg]
    · rw [if_neg hd, Rat.mkRat_eq_div, ← key]
      have ht : ((((a.den : ℤ) * b.num).toNat : ℤ)) = (a.den : ℤ) * b.num :=
        Int.toNat_of_nonneg (by omega)
      rw [show ((((a.den : ℤ) * b.num).toNat : ℕ) : ℚ) = (((a.den : ℤ) * b.num : ℤ) : ℚ) by
        exact_mod_cast congrArg (fun z : ℤ => (z : ℚ)) ht]

theorem deserialize_serialize (t : ASTNode) : deserialize (serialize t) = t := by
  induction t with
  | numberNode v => rfl
  | binaryOperationNode l r op ihl ihr => simp [serialize, deserialize, ihl, ihr]

/-- C3: round-trip law — for every AST `t`, `deserialize(t.serialize())` has the
same `evaluate()` result (errors included), the same `print()` string, and the
same `serialize()` output as `t`. -/
theorem roundtrip_behavioral_identity (t : ASTNode) :
    evaluate (deserialize (serialize t)) = evaluate t ∧
    printNode (deserialize (serialize t)) = printNode t ∧
    serialize (deserialize (serialize t)) = serialize t := by
  rw [deserialize_serialize]
  exact ⟨rfl, rfl, rfl⟩

/-- C4: `print()` of a `BinaryOperationNode` is exactly
`"(" ++ left ++ " " ++ operator ++ " " ++ right ++ ")"`, a `NumberNode` prints
the decimal form of its value, and `parse("10 + 5").print()` is `"(10 + 5)"`. -/
theorem print_fully_parenthesized :
    (∀ (l r : ASTNode) (op : Char), printNode (.binaryOperationNode l r op) =
      "(" ++ printNode l ++ " " ++ op.toString ++ " " ++ printNode r ++ ")") ∧
    (∀ v : JSNum, printNode (.numberNode v) = numToString v) ∧
    parse "10 + 5" =
      .ok (.binaryOperationNode (.numberNode (.fin 10)) (.numberNode (.fin 5)) '+') ∧
    printNode (.binaryOperationNode (.numberNode (.fin 10)) (.numberNode (.fin 5)) '+') =
      "(10 + 5)" :=
  ⟨fun _ _ _ => rfl, fun _ => rfl, by decide, by decide⟩

/-- C5: evaluating a `/` node whose two children evaluate successfully fails
with DivisionByZero exactly when the right operand's value is the number `0`
(the guard runs before the division); `parse("10 / 0").evaluate()` raises
DivisionByZero. -/
theorem division_by_zero_guard :
    (∀ (l r : ASTNode) (lv rv : Value), evaluate l = .ok lv → evaluate r = .ok rv →
      (evaluate (.binaryOperationNode l r '/') = .error .divisionByZero ↔
        rv = Value.num (.fin 0))) ∧
    parse "10 / 0" =
      .ok (.binaryOperationNode (.numberNode (.fin 10)) (.numberNode (.fin 0)) '/') ∧
    evaluate (.binaryOperationNode (.numberNode (.fin 10)) (.numberNode (.fin 0)) '/') =
      .error .divisionByZero := by
  refine ⟨?_, by decide, by decide⟩
  intro l r lv rv hl hr
  have hrw : evaluate (.binaryOperationNode l r '/') =
      if rv = Value.num (.fin 0) then .error .divisionByZero
      else .ok (.num (jsDiv (toNumber lv) (toNumber rv))) := by
    simp only [evaluate, hl, hr]
  rw [hrw]
  by_cases hz : rv = Value.num (.fin 0)
  · simp [hz]
  · simp [hz]

/-- Witness for C5 at `10 / 0`. -/
theorem division_by_zero_guard_witness :
    evaluate (.binaryOperationNode (.numberNode (.fin 10)) (.numberNode (.fin 0)) '/') =
      .error .divisionByZero ↔ Value.num (.fin 0) = Value.num (.fin 0) :=
  division_by_zero_guard.1 (.numberNode (.fin 10)) (.numberNode (.fin 0))
    (.num (.fin 10)) (.num (.fin 0)) (by decide) (by decide)

/-- C9 counterexample: for `(0 - 5) / (2 = 3)` the right operand evaluates to
`false` and the numerator to the nonzero `-5`, yet the result is `-Infinity`,
not `Infinity` — refuting the claim's "Infinity for a nonzero numerator". -/
theorem div_by_false_infinity_counterexample :
    evaluate (.binaryOperationNode (.numberNode (.fin 0)) (.numberNode (.fin 5)) '-') =
      .ok (.num (.fin (-5))) ∧
    evaluate (.binaryOperationNode (.numberNode (.fin 2)) (.numberNode (.fin 3)) '=') =
      .ok (.bool false) ∧
    evaluate (.binaryOperationNode
      (.binaryOperationNode (.numberNode (.fin 0)) (.numberNode (.fin 5)) '-')
      (.binaryOperationNode (.numberNode (.fin 2)) (.numberNode (.fin 3)) '=') '/') =
      .ok (.num .negInf) ∧
    Except.ok (Value.num JSNum.negInf) ≠
      (Except.ok (Value.num JSNum.inf) : Except Err Value) :=
  ⟨by decide, by decide, by decide, by decide⟩

/-- C9 (amended): a `/` node whose right child evaluates to the boolean `false`
never raises DivisionByZero — the strict-equality guard does not match — and the
division proceeds on the numerically coerced boolean, giving `Infinity` for a
positive numerator and `-Infinity` for a negative one; in particular
`parse("1 / (2 = 3)").evaluate()` is `Infinity`. -/
theorem div_by_false_no_error :
    (∀ (l r : ASTNode) (lv : Value), evaluate l = .ok lv →
      evaluate r = .ok (.bool false) →
      evaluate (.binaryOperationNode l r '/') = .ok (.num (jsDiv (toNumber lv) (.fin 0)))) ∧
    (∀ q : ℚ, 0 < q → jsDiv (.fin q) (.fin 0) = .inf) ∧
    (∀ q : ℚ, q < 0 → jsDiv (.fin q) (.fin 0) = .negInf) ∧
    parse "1 / (2 = 3)" = .ok (.binaryOperationNode (.numberNode (.fin 1))
      (.binaryOperationNode (.numberNode (.fin 2)) (.numberNode (.fin 3)) '=') '/') ∧
    evaluate (.binaryOperationNode (.numberNode (.fin 1))
      (.binaryOperationNode (.numberNode (.fin 2)) (.numberNode (.fin 3)) '=') '/') =
      .ok (.num .inf) := by
  refine ⟨?_, ?_, ?_, by decide, by decide⟩
  · intro l r lv hl hr
    have hrw : evaluate (.binaryOperationNode l r '/') =
        if (Value.bool false) = Value.num (.fin 0) then .error .divisionByZero
        else .ok (.num (jsDiv (toNumber lv) (toNumber (Value.bool false)))) := by
      simp only [evaluate, hl, hr]
    rw [hrw]
    simp [toNumber]
  · intro q hq
    simp [jsDiv, hq]
  · intro q hq
    simp [jsDiv, hq, lt_asymm hq]

/-- Witness for C9's amended theorem at `1 / (2 = 3)`. -/
theorem div_by_false_no_error_witness :
    evaluate (.binaryOperationNode (.numberNode (.fin 1))
      (.binaryOperationNode (.numberNode (.fin 2)) (.numberNode (.fin 3)) '=') '/') =
      .ok (.num (jsDiv (toNumber (Value.num (.fin 1))) (.fin 0))) ∧
    jsDiv (.fin 1) (.fin 0) = .inf :=
  ⟨div_by_false_no_error.1 _ _ (.num (.fin 1)) (by decide) (by decide),
   div_by_false_no_error.2.1 1 one_pos⟩

/-- C6: the tree builder fails with InsufficientOperands whenever an operator
token arrives with fewer than two nodes on the AST stack (the right operand is
popped first), fails with InvalidExpression when the final stack size differs
from one, and the four degenerate inputs all fail with InvalidExpression. -/
theorem builder_error_conditions :
    (∀ (stack : List ASTNode) (c : Char) (ts : List Token), stack.length < 2 →
      buildGo stack (.sym c :: ts) = .error .insufficientOperands) ∧
    (∀ (toks : List Token) (st : List ASTNode), buildGo [] toks = .ok st →
      st.length ≠ 1 → buildAST toks = .error .invalidExpression) ∧
    parse "" = .error .invalidExpression ∧
    parse "   " = .error .invalidExpression ∧
    parse "()" = .error .invalidExpression ∧
    parse "(   )" = .error .invalidExpression := by
  refine ⟨?_, ?_, by decide, by decide, by decide, by decide⟩
  · intro stack c ts h
    rcases stack with _ | ⟨x, _ | ⟨y, rest⟩⟩
    · rfl
    · rfl
    · exact absurd h (by simp)
  · intro toks st h hne
    unfold buildAST
    rw [h]
    rcases st with _ | ⟨t, _ | ⟨u, rest⟩⟩
    · rfl
    · exact absurd rfl hne
    · rfl

/-- Witness for C6: an operator with an empty stack, and a two-number RPN. -/
theorem builder_error_conditions_witness :
    buildGo [] [Token.sym '+'] = .error .insufficientOperands ∧
    buildAST [Token.num (.fin 1), Token.num (.fin 2)] = .error .invalidExpression :=
  ⟨builder_error_conditions.1 [] '+' [] (by decide),
   builder_error_conditions.2.1 [Token.num (.fin 1), Token.num (.fin 2)]
     [ASTNode.numberNode (.fin 2), ASTNode.numberNode (.fin 1)] (by decide) (by decide)⟩

/-- C1 (code bug): `Parser.precedence` maps every operator other than `+`/`-`
— the comparisons `<`, `>`, `=` included — to 2, not 1 as the README's stated
requirement ("same precedence as `+`/`-`") demands; consequently an incoming
comparison operator does not pop a pending additive operator (while an incoming
additive operator does pop a pending comparison), and `1 + 2 < 3` parses as
`1 + (2 < 3)` instead of the documented `(1 + 2) < 3`. -/
theorem comparison_precedence_divergence :
    (precedence '<' = 2 ∧ precedence '>' = 2 ∧ precedence '=' = 2) ∧
    (precedence '+' = 1 ∧ precedence '-' = 1 ∧ precedence '*' = 2 ∧ precedence '/' = 2) ∧
    (∀ S : List Char, popWhileGE '<' ('+' :: S) = ([], '+' :: S)) ∧
    (∀ S : List Char, popWhileGE '+' ('<' :: S) =
      ('<' :: (popWhileGE '+' S).1, (popWhileGE '+' S).2)) ∧
    parse "1 + 2 < 3" = .ok (.binaryOperationNode (.numberNode (.fin 1))
      (.binaryOperationNode (.numberNode (.fin 2)) (.numberNode (.fin 3)) '<') '+') := by
  refine ⟨by decide, by decide, ?_, ?_, by decide⟩
  · intro S
    simp [popWhileGE, isVaildOp, precedence]
  · intro S
    simp [popWhileGE, isVaildOp, precedence]

theorem tokenizeGo_acc (cs : List Char) : ∀ (i : ℕ) (acc : List Char), acc ≠ [] →
    tokenizeGo cs i acc =
      (tokenizeGo (cs.dropWhile isNumChar) (i + (cs.takeWhile isNumChar).length) []).map
        (fun ts => .num (parseRun (acc.reverse ++ cs.takeWhile isNumChar)) :: ts) := by
  induction cs with
  | nil =>
    intro i acc hacc
    rcases acc with _ | ⟨a, as⟩
    · exact absurd rfl hacc
    · simp [tokenizeGo, Except.map]
  | cons c cs ih =>
    intro i acc hacc
    by_cases hc : isNumChar c = true
    · rcases acc with _ | ⟨a, as⟩
      · exact absurd rfl hacc
      · rw [show tokenizeGo (c :: cs) i (a :: as) = tokenizeGo cs (i + 1) (c :: a :: as) from by
          simp [tokenizeGo, hc]]
        rw [ih (i + 1) (c :: a :: as) (by simp)]
        rw [List.takeWhile_cons_of_pos hc, List.dropWhile_cons_of_pos hc]
        have e1 : i + 1 + (cs.takeWhile isNumChar).length =
            i + (c :: cs.takeWhile isNumChar).length := by
          simp
          omega
        have e2 : (c :: a :: as).reverse ++ cs.takeWhile isNumChar =
            (a :: as).reverse ++ (c :: cs.takeWhile isNumChar) := by
          simp
        rw [e1, e2]
    · rcases acc with _ | ⟨a, as⟩
      · exact absurd rfl hacc
      · rw [List.takeWhile_cons_of_neg (by simpa using hc),
          List.dropWhile_cons_of_neg (by simpa using hc)]
        simp only [List.length_nil, Nat.add_zero, List.append_nil]
        by_cases hs : isSymChar c = true
        · simp only [tokenizeGo, hc, hs, if_true, if_false]
          cases tokenizeGo cs (i + 1) [] <;> simp [Except.map]
        · simp only [tokenizeGo, hc, hs]
          simp [Except.map]

theorem tokenizeGo_num (c : Char) (cs : List Char) (i : ℕ) (h : isNumChar c = true) :
    tokenizeGo (c :: cs) i [] =
      (tokenizeGo (cs.dropWhile isNumChar) (i + 1 + (cs.takeWhile isNumChar).length) []).map
        (fun ts => .num (parseRun (c :: cs.takeWhile isNumChar)) :: ts) := by
  rw [show tokenizeGo (c :: cs) i [] = tokenizeGo cs (i + 1) [c] from by simp [tokenizeGo, h]]
  rw [tokenizeGo_acc cs (i + 1) [c] (by simp)]
  simp

theorem takeWhile_replicate_dot (m : ℕ) :
    (List.replicate m '.').takeWhile isNumChar = List.replicate m '.' := by
  induction m with
  | zero => rfl
  | succ k ih => rw [List.replicate_succ, List.takeWhile_cons_of_pos (by decide), ih]

theorem dropWhile_replicate_dot (m : ℕ) :
    (List.replicate m '.').dropWhile isNumChar = [] := by
  induction m with
  | zero => rfl
  | succ k ih => rw [List.replicate_succ, List.dropWhile_cons_of_pos (by decide), ih]

theorem parseRun_dots (k : ℕ) : parseRun ('.' :: List.replicate k '.') = .nan := by
  have h1 : ('.' :: List.replicate k '.').takeWhile Char.isDigit = [] :=
    List.takeWhile_cons_of_neg (by decide)
  have h2 : ('.' :: List.replicate k '.').dropWhile Char.isDigit =
      '.' :: List.replicate k '.' :=
    List.dropWhile_cons_of_neg (by decide)
  have h3 : (List.replicate k '.').takeWhile Char.isDigit = [] := by
    cases k with
    | zero => rfl
    | succ m => rw [List.replicate_succ, List.takeWhile_cons_of_neg (by decide)]
  simp [parseRun, h1, h2, h3]

theorem tokenize_replicate_dot (k : ℕ) :
    tokenize (String.mk (List.replicate (k + 1) '.')) = .ok [.num .nan] := by
  rw [tokenize, show (String.mk (List.replicate (k + 1) '.')).data =
    List.replicate (k + 1) '.' from rfl]
  rw [List.replicate_succ, tokenizeGo_num '.' _ 0 (by decide)]
  rw [takeWhile_replicate_dot, dropWhile_replicate_dot, parseRun_dots]
  rfl

theorem isValidGo_replicate_dot (m : ℕ) : ∀ st, isValidGo (List.replicate m '.') st =
    isValidGo [] st := by
  induction m with
  | zero => intro st; rfl
  | succ k ih =>
    intro st
    rw [List.replicate_succ, show isValidGo ('.' :: List.replicate k '.') st =
      isValidGo (List.replicate k '.') st from by simp [isValidGo], ih]

/-- C7: the tokenizer collects each maximal `[0-9.]` run and converts it with
the longest-valid-prefix rule, silently dropping the remainder of the run; any
input whose whitespace-stripped form is `1.2.3` parses to the single number
`1.2 = 6/5`. -/
theorem tokenizer_prefix_policy :
    (∀ (c : Char) (cs : List Char) (i : ℕ), isNumChar c = true →
      tokenizeGo (c :: cs) i [] =
        (tokenizeGo (cs.dropWhile isNumChar) (i + 1 + (cs.takeWhile isNumChar).length) []).map
          (fun ts => Token.num (parseRun (c :: cs.takeWhile isNumChar)) :: ts)) ∧
    (∀ s : String, stripWS s = "1.2.3" → parse s = .ok (.numberNode (.fin (mkRat 6 5)))) ∧
    evaluate (.numberNode (.fin (mkRat 6 5))) = .ok (.num (.fin (mkRat 6 5))) ∧
    (mkRat 6 5 : ℚ) = 6 / 5 := by
  refine ⟨tokenizeGo_num, ?_, by decide, by rw [Rat.mkRat_eq_div]; norm_num⟩
  intro s hs
  simp only [parse]
  rw [hs]
  decide

/-- Witness for C7 at the input `" 1.2.3 "`. -/
theorem tokenizer_prefix_policy_witness :
    parse " 1.2.3 " = .ok (.numberNode (.fin (mkRat 6 5))) :=
  tokenizer_prefix_policy.2.1 " 1.2.3 " (by decide)

/-- C10: a maximal `[0-9.]` run containing no digits is still accepted as a
number token: any input whose stripped form is a nonempty run of dots parses,
without error, to a `NumberNode` whose value is `NaN`. -/
theorem dots_parse_to_nan :
    (∀ (s : String) (k : ℕ), stripWS s = String.mk (List.replicate (k + 1) '.') →
      parse s = .ok (.numberNode .nan)) ∧
    parse "." = .ok (.numberNode .nan) ∧
    evaluate (.numberNode .nan) = .ok (.num .nan) := by
  refine ⟨?_, by decide, by decide⟩
  intro s k hs
  have hval : isValid (stripWS s) = true := by
    rw [hs, isValid, show (String.mk (List.replicate (k + 1) '.')).data =
      List.replicate (k + 1) '.' from rfl, isValidGo_replicate_dot]
    rfl
  have htok : tokenize (stripWS s) = .ok [.num .nan] := by
    rw [hs]
    exact tokenize_replicate_dot k
  simp only [parse, hval, htok, Bool.not_true]
  decide

/-- Witness for C10 at the input `" .. "`. -/
theorem dots_parse_to_nan_witness : parse " .. " = .ok (.numberNode .nan) :=
  dots_parse_to_nan.1 " .. " 1 (by decide)

theorem opens_nil : opens [] = 0 := rfl

theorem closes_nil : closes [] = 0 := rfl

theorem opens_cons (c : Char) (cs : List Char) :
    opens (c :: cs) = (if c = '(' then 1 else 0) + opens cs := by
  by_cases h : c = '('
  · subst h
    simp [opens, List.count_cons]
    omega
  · simp [opens, List.count_cons, h]

theorem closes_cons (c : Char) (cs : List Char) :
    closes (c :: cs) = (if c = ')' then 1 else 0) + closes cs := by
  by_cases h : c = ')'
  · subst h
    simp [closes, List.count_cons]
    omega
  · simp [closes, List.count_cons, h]

theorem opens_cons_open (cs : List Char) : opens ('(' :: cs) = opens cs + 1 := by
  rw [opens_cons]
  simp
  omega

theorem opens_cons_ne (c : Char) (cs : List Char) (h : c ≠ '(') :
    opens (c :: cs) = opens cs := by
  rw [opens_cons]
  simp [h]

theorem closes_cons_close (cs : List Char) : closes (')' :: cs) = closes cs + 1 := by
  rw [closes_cons]
  simp
  omega

theorem closes_cons_ne (c : Char) (cs : List Char) (h : c ≠ ')') :
    closes (c :: cs) = closes cs := by
  rw [closes_cons]
  simp [h]

theorem isValidGo_replicate (cs : List Char) : ∀ n : ℕ,
    isValidGo cs (List.replicate n '(') = true ↔
      ((∀ p, p <+: cs → closes p ≤ n + opens p) ∧ n + opens cs = closes cs) := by
  induction cs with
  | nil =>
    intro n
    constructor
    · intro h
      have hn : n = 0 := by
        cases n with
        | zero => rfl
        | succ m => simp [isValidGo, List.replicate_succ] at h
      subst hn
      refine ⟨?_, by simp [opens_nil, closes_nil]⟩
      intro p hp
      rw [List.prefix_nil.mp hp]
      simp [opens_nil, closes_nil]
    · rintro ⟨-, htot⟩
      have hn : n = 0 := by
        simp [opens_nil, closes_nil] at htot
        exact htot
      subst hn
      rfl
  | cons c cs ih =>
    intro n
    by_cases ho : c = '('
    · subst ho
      rw [show isValidGo ('(' :: cs) (List.replicate n '(') =
          isValidGo cs (List.replicate (n + 1) '(') from by
        simp [isValidGo, List.replicate_succ]]
      rw [ih (n + 1)]
      have hoo : opens ('(' :: cs) = opens cs + 1 := opens_cons_open cs
      have hcc : closes ('(' :: cs) = closes cs := closes_cons_ne _ _ (by decide)
      constructor
      · rintro ⟨hpre, htot⟩
        refine ⟨?_, by omega⟩
        intro p hp
        rcases List.prefix_cons_iff.mp hp with rfl | ⟨q, rfl, hq⟩
        · simp [opens_nil, closes_nil]
        · have hq2 := hpre q hq
          have h3 : opens ('(' :: q) = opens q + 1 := opens_cons_open q
          have h4 : closes ('(' :: q) = closes q := closes_cons_ne _ _ (by decide)
          omega
      · rintro ⟨hpre, htot⟩
        refine ⟨?_, by omega⟩
        intro q hq
        have hq2 := hpre ('(' :: q) (List.cons_prefix_cons.mpr ⟨rfl, hq⟩)
        have h3 : opens ('(' :: q) = opens q + 1 := opens_cons_open q
        have h4 : closes ('(' :: q) = closes q := closes_cons_ne _ _ (by decide)
        omega
    · by_cases hc : c = ')'
      · subst hc
        have hoo : opens (')' :: cs) = opens cs := opens_cons_ne _ _ (by decide)
        have hcc : closes (')' :: cs) = closes cs + 1 := closes_cons_close cs
        cases n with
        | zero =>
          rw [show isValidGo (')' :: cs) (List.replicate 0 '(') = false from rfl]
          constructor
          · intro h
            cases h
          · rintro ⟨hpre, -⟩
            have h1 := hpre [')'] ⟨cs, rfl⟩
            have h3 : opens [')'] = 0 := opens_cons_ne _ _ (by decide)
            have h4 : closes [')'] = 1 := closes_cons_close []
            rw [h3, h4] at h1
            omega
        | succ m =>
          rw [show isValidGo (')' :: cs) (List.replicate (m + 1) '(') =
              isValidGo cs (List.replicate m '(') from by
            simp [isValidGo, List.replicate_succ]]
          rw [ih m]
          constructor
          · rintro ⟨hpre, htot⟩
            refine ⟨?_, by omega⟩
            intro p hp
            rcases List.prefix_cons_iff.mp hp with rfl | ⟨q, rfl, hq⟩
            · simp [opens_nil, closes_nil]
            · have hq2 := hpre q hq
              have h3 : opens (')' :: q) = opens q := opens_cons_ne _ _ (by decide)
              have h4 : closes (')' :: q) = closes q + 1 := closes_cons_close q
              omega
          · rintro ⟨hpre, htot⟩
            refine ⟨?_, by omega⟩
            intro q hq
            have hq2 := hpre (')' :: q) (List.cons_prefix_cons.mpr ⟨rfl, hq⟩)
            have h3 : opens (')' :: q) = opens q := opens_cons_ne _ _ (by decide)
            have h4 : closes (')' :: q) = closes q + 1 := closes_cons_close q
            omega
      · have hoo : opens (c :: cs) = opens cs := opens_cons_ne _ _ ho
        have hcc : closes (c :: cs) = closes cs := closes_cons_ne _ _ hc
        rw [show isValidGo (c :: cs) (List.replicate n '(') =
            isValidGo cs (List.replicate n '(') from by
          simp [isValidGo, ho, hc]]
        rw [ih n]
        constructor
        · rintro ⟨hpre, htot⟩
          refine ⟨?_, by omega⟩
          intro p hp
          rcases List.prefix_cons_iff.mp hp with rfl | ⟨q, rfl, hq⟩
          · simp [opens_nil, closes_nil]
          · have hq2 := hpre q hq
            have h3 : opens (c :: q) = opens q := opens_cons_ne _ _ ho
            have h4 : closes (c :: q) = closes q := closes_cons_ne _ _ hc
            omega
        · rintro ⟨hpre, htot⟩
          refine ⟨?_, by omega⟩
          intro q hq
          have hq2 := hpre (c :: q) (List.cons_prefix_cons.mpr ⟨rfl, hq⟩)
          have h3 : opens (c :: q) = opens q := opens_cons_ne _ _ ho
          have h4 : closes (c :: q) = closes q := closes_cons_ne _ _ hc
          omega

theorem isValid_iff_balanced (s : String) :
    isValid s = true ↔
      ((∀ p, p <+: s.data → closes p ≤ opens p) ∧ opens s.data = closes s.data) := by
  have h := isValidGo_replicate s.data 0
  simpa [isValid] using h

theorem tokenizeGo_error_range (cs : List Char) : ∀ (i : ℕ) (acc : List Char) (e : Err),
    tokenizeGo cs i acc = .error e → ∃ c p, e = .unexpectedToken c p := by
  induction cs with
  | nil =>
    intro i acc e h
    rcases acc with _ | ⟨a, as⟩ <;> simp [tokenizeGo] at h
  | cons c cs ih =>
    intro i acc e h
    by_cases hc : isNumChar c = true
    · rw [show tokenizeGo (c :: cs) i acc = tokenizeGo cs (i + 1) (c :: acc) from by
        simp [tokenizeGo, hc]] at h
      exact ih _ _ _ h
    · by_cases hs : isSymChar c = true
      · rcases acc with _ | ⟨a, as⟩
        · rw [show tokenizeGo (c :: cs) i [] =
              (tokenizeGo cs (i + 1) []).map (fun ts => .sym c :: ts) from by
            simp [tokenizeGo, hc, hs]] at h
          cases hin : tokenizeGo cs (i + 1) [] with
          | error f =>
            rw [hin] at h
            simp [Except.map] at h
            subst h
            exact ih _ _ _ hin
          | ok ts =>
            rw [hin] at h
            simp [Except.map] at h
        · rw [show tokenizeGo (c :: cs) i (a :: as) =
              ((tokenizeGo cs (i + 1) []).map (fun ts => .sym c :: ts)).map
                (fun ts => .num (parseRun ((a :: as).reverse)) :: ts) from by
            simp [tokenizeGo, hc, hs]] at h
          cases hin : tokenizeGo cs (i + 1) [] with
          | error f =>
            rw [hin] at h
            simp [Except.map] at h
            subst h
            exact ih _ _ _ hin
          | ok ts =>
            rw [hin] at h
            simp [Except.map] at h
      · rcases acc with _ | ⟨a, as⟩
        · rw [show tokenizeGo (c :: cs) i [] = .error (.unexpectedToken c i) from by
            simp [tokenizeGo, hc, hs]] at h
          refine ⟨c, i, ?_⟩
          injection h with h
          exact h.symm
        · rw [show tokenizeGo (c :: cs) i (a :: as) =
              (Except.error (.unexpectedToken c i)).map
                (fun ts => .num (parseRun ((a :: as).reverse)) :: ts) from by
            simp [tokenizeGo, hc, hs]] at h
          simp [Except.map] at h
          exact ⟨c, i, h.symm⟩

theorem buildGo_error_range (ts : List Token) : ∀ (stack : List ASTNode) (e : Err),
    buildGo stack ts = .error e → e = .insufficientOperands := by
  induction ts with
  | nil =>
    intro stack e h
    simp [buildGo] at h
  | cons tk ts ih =>
    intro stack e h
    cases tk with
    | num n => exact ih _ _ h
    | sym c =>
      rcases stack with _ | ⟨r, _ | ⟨l, rest⟩⟩
      · injection h with h
        exact h.symm
      · injection h with h
        exact h.symm
      · exact ih _ _ h

theorem buildAST_error_range (ts : List Token) (e : Err) (h : buildAST ts = .error e) :
    e = .insufficientOperands ∨ e = .invalidExpression := by
  unfold buildAST at h
  cases hb : buildGo [] ts with
  | error f =>
    rw [hb] at h
    injection h with h
    subst h
    exact Or.inl (buildGo_error_range _ _ _ hb)
  | ok st =>
    rw [hb] at h
    rcases st with _ | ⟨t, _ | ⟨u, rest⟩⟩
    · injection h with h
      exact Or.inr h.symm
    · cases h
    · injection h with h
      exact Or.inr h.symm

/-- C8: `parse` fails with InvalidParentheses exactly when `isValid` rejects the
whitespace-stripped input (no later stage can produce that error); `isValid`,
which tracks only parentheses, accepts exactly the strings with no prematurely
unmatched `)` in any prefix and no leftover unmatched `(` at the end; in
particular `parse("(1 + 2")` raises InvalidParentheses. -/
theorem parse_invalid_parentheses_iff :
    (∀ expr : String, parse expr = .error .invalidParentheses ↔
      isValid (stripWS expr) = false) ∧
    (∀ s : String, isValid s = true ↔
      ((∀ p, p <+: s.data → closes p ≤ opens p) ∧ opens s.data = closes s.data)) ∧
    parse "(1 + 2" = .error .invalidParentheses := by
  refine ⟨?_, isValid_iff_balanced, by decide⟩
  intro expr
  constructor
  · intro h
    by_contra hval
    have hv : isValid (stripWS expr) = true := by
      cases hb : isValid (stripWS expr)
      · exact absurd hb hval
      · rfl
    simp only [parse, hv, Bool.not_true, Bool.false_eq_true, if_false] at h
    cases htok : tokenize (stripWS expr) with
    | error e =>
      rw [htok] at h
      obtain ⟨c, p, rfl⟩ := tokenizeGo_error_range (stripWS expr).data 0 [] e htok
      simp at h
    | ok toks =>
      rw [htok] at h
      rcases buildAST_error_range _ _ h with hco | hco <;> cases hco
  · intro h
    simp [parse, h]

theorem prefix_append_cases {α : Type _} (p l1 l2 : List α) (h : p <+: l1 ++ l2) :
    p <+: l1 ∨ ∃ r, p = l1 ++ r ∧ r <+: l2 := by
  induction l1 generalizing p with
  | nil =>
    right
    exact ⟨p, rfl, by simpa using h⟩
  | cons a l1 ih =>
    rcases List.prefix_cons_iff.mp h with rfl | ⟨q, rfl, hq⟩
    · left
      exact List.nil_prefix
    · rcases ih q hq with h1 | ⟨r, rfl, hr⟩
      · left
        exact List.cons_prefix_cons.mpr ⟨rfl, h1⟩
      · right
        exact ⟨r, rfl, hr⟩

theorem precedence_pos (c : Char) : 1 ≤ precedence c := by
  unfold precedence
  split <;> omega

theorem isVaildOp_ne_lparen (x : Char) (h : isVaildOp x = true) : x ≠ '(' := by
  intro hx
  subst hx
  simp [isVaildOp] at h

theorem popWhileGE_low (c : Char) (hc : precedence c = 1) (P : List Char)
    (hP : ∀ x ∈ P, isVaildOp x = true) : ∀ S : List Char, stackOK 0 S →
    popWhileGE c (P ++ S) = (P, S) := by
  induction P with
  | nil =>
    intro S hS
    rcases hS with rfl | ⟨S', rfl⟩
    · rfl
    · simp [popWhileGE, isVaildOp]
  | cons x P ih =>
    intro S hS
    have hx := hP x (by simp)
    have hpx : precedence c ≤ precedence x := by
      rw [hc]
      exact precedence_pos x
    rw [List.cons_append]
    rw [show popWhileGE c (x :: (P ++ S)) =
        (x :: (popWhileGE c (P ++ S)).1, (popWhileGE c (P ++ S)).2) from by
      simp [popWhileGE, hx, hpx]]
    rw [ih (fun y hy => hP y (by simp [hy])) S hS]

theorem popWhileGE_high (c : Char) (hc : precedence c = 2) (P : List Char)
    (hP : ∀ x ∈ P, isVaildOp x = true ∧ precedence x = 2) : ∀ S : List Char, stackOK 1 S →
    popWhileGE c (P ++ S) = (P, S) := by
  induction P with
  | nil =>
    intro S hS
    rcases hS with (rfl | ⟨S', rfl⟩) | (⟨S', rfl⟩ | ⟨S', rfl⟩)
    · rfl
    · simp [popWhileGE, isVaildOp]
    · rw [List.nil_append]
      rw [show popWhileGE c ('+' :: S') = ([], '+' :: S') from by
        have h1 : precedence '+' = 1 := rfl
        simp [popWhileGE, isVaildOp, h1, hc]]
    · rw [List.nil_append]
      rw [show popWhileGE c ('-' :: S') = ([], '-' :: S') from by
        have h1 : precedence '-' = 1 := rfl
        simp [popWhileGE, isVaildOp, h1, hc]]
  | cons x P ih =>
    intro S hS
    have hx := (hP x (by simp)).1
    have hpx : precedence c ≤ precedence x := by
      rw [hc, (hP x (by simp)).2]
    rw [List.cons_append]
    rw [show popWhileGE c (x :: (P ++ S)) =
        (x :: (popWhileGE c (P ++ S)).1, (popWhileGE c (P ++ S)).2) from by
      simp [popWhileGE, hx, hpx]]
    rw [ih (fun y hy => hP y (by simp [hy])) S hS]

theorem popUntilLParen_pend (P : List Char) (hP : ∀ x ∈ P, isVaildOp x = true) :
    ∀ S : List Char, popUntilLParen (P ++ '(' :: S) = (P, '(' :: S) := by
  induction P with
  | nil =>
    intro S
    simp [popUntilLParen]
  | cons x P ih =>
    intro S
    have hx : x ≠ '(' := isVaildOp_ne_lparen x (hP x (by simp))
    rw [List.cons_append]
    rw [show popUntilLParen (x :: (P ++ '(' :: S)) =
        (x :: (popUntilLParen (P ++ '(' :: S)).1, (popUntilLParen (P ++ '(' :: S)).2) from by
      simp [popUntilLParen, hx]]
    rw [ih (fun y hy => hP y (by simp [hy])) S]

theorem shuntGo_append (ts1 : List Token) : ∀ (ts2 out : List Token) (ops : List Char),
    shuntGo out ops (ts1 ++ ts2) =
      shuntGo (shuntGo out ops ts1).1 (shuntGo out ops ts1).2 ts2 := by
  induction ts1 with
  | nil =>
    intro ts2 out ops
    rfl
  | cons tk ts1 ih =>
    intro ts2 out ops
    cases tk with
    | num n =>
      rw [List.cons_append]
      rw [show shuntGo out ops (Token.num n :: (ts1 ++ ts2)) =
          shuntGo (out ++ [Token.num n]) ops (ts1 ++ ts2) from by simp [shuntGo]]
      rw [show shuntGo out ops (Token.num n :: ts1) =
          shuntGo (out ++ [Token.num n]) ops ts1 from by simp [shuntGo]]
      exact ih ts2 (out ++ [Token.num n]) ops
    | sym c =>
      by_cases hv : isVaildOp c = true
      · rw [List.cons_append]
        rw [show shuntGo out ops (Token.sym c :: (ts1 ++ ts2)) =
            shuntGo (out ++ (popWhileGE c ops).1.map Token.sym)
              (c :: (popWhileGE c ops).2) (ts1 ++ ts2) from by simp [shuntGo, hv]]
        rw [show shuntGo out ops (Token.sym c :: ts1) =
            shuntGo (out ++ (popWhileGE c ops).1.map Token.sym)
              (c :: (popWhileGE c ops).2) ts1 from by simp [shuntGo, hv]]
        exact ih ts2 _ _
      · by_cases hp : c = '('
        · subst hp
          rw [List.cons_append]
          rw [show shuntGo out ops (Token.sym '(' :: (ts1 ++ ts2)) =
              shuntGo out ('(' :: ops) (ts1 ++ ts2) from by simp [shuntGo, hv]]
          rw [show shuntGo out ops (Token.sym '(' :: ts1) =
              shuntGo out ('(' :: ops) ts1 from by simp [shuntGo, hv]]
          exact ih ts2 out _
        · rw [List.cons_append]
          rw [show shuntGo out ops (Token.sym c :: (ts1 ++ ts2)) =
              shuntGo (out ++ (popUntilLParen ops).1.map Token.sym)
                ((popUntilLParen ops).2.drop 1) (ts1 ++ ts2) from by simp [shuntGo, hv, hp]]
          rw [show shuntGo out ops (Token.sym c :: ts1) =
              shuntGo (out ++ (popUntilLParen ops).1.map Token.sym)
                ((popUntilLParen ops).2.drop 1) ts1 from by simp [shuntGo, hv, hp]]
          exact ih ts2 _ _

theorem shuntGo_spec {lvl : ℕ} {ts : List Token} {t : ASTNode} (h : SpecReads lvl ts t) :
    ∀ (out : List Token) (S : List Char), stackOK lvl S →
      ∃ o P, shuntGo out S ts = (out ++ o, P ++ S) ∧
        o ++ P.map Token.sym = postfixOf t ∧ pendOK lvl P := by
  induction h with
  | num n =>
    intro out S _
    refine ⟨[.num n], [], ?_, rfl, rfl⟩
    simp [shuntGo]
  | paren ts t h ih =>
    intro out S _
    rw [show Token.sym '(' :: ts ++ [Token.sym ')'] =
        Token.sym '(' :: (ts ++ [Token.sym ')']) from rfl]
    rw [show shuntGo out S (Token.sym '(' :: (ts ++ [Token.sym ')'])) =
        shuntGo out ('(' :: S) (ts ++ [Token.sym ')']) from by simp [shuntGo, isVaildOp]]
    rw [shuntGo_append]
    obtain ⟨o1, P1, he, ho, hp⟩ := ih out ('(' :: S) (Or.inr ⟨S, rfl⟩)
    rw [he]
    rw [show shuntGo (out ++ o1) (P1 ++ '(' :: S) [Token.sym ')'] =
        (out ++ o1 ++ (popUntilLParen (P1 ++ '(' :: S)).1.map Token.sym,
          ((popUntilLParen (P1 ++ '(' :: S)).2).drop 1) from by
      simp [shuntGo, isVaildOp]]
    rw [popUntilLParen_pend P1 hp S]
    refine ⟨o1 ++ P1.map Token.sym, [], ?_, ?_, rfl⟩
    · simp
    · simpa using ho
  | tOfF ts t h ih =>
    intro out S _
    obtain ⟨o, P, he, ho, hp⟩ := ih out S trivial
    have hP : P = [] := hp
    subst hP
    exact ⟨o, [], he, ho, fun x hx => absurd hx (List.not_mem_nil x)⟩
  | eOfT ts t h ih =>
    intro out S hS
    obtain ⟨o, P, he, ho, hp⟩ := ih out S (Or.inl hS)
    exact ⟨o, P, he, ho, fun x hx => (hp x hx).1⟩
  | addOp ts1 l ts2 r c hc h1 h2 ih1 ih2 =>
    intro out S hS
    have hprec : precedence c = 1 := by rcases hc with rfl | rfl <;> rfl
    have hvc : isVaildOp c = true := by rcases hc with rfl | rfl <;> rfl
    rw [shuntGo_append]
    obtain ⟨o1, P1, he1, ho1, hp1⟩ := ih1 out S hS
    rw [he1]
    rw [show shuntGo (out ++ o1) (P1 ++ S) (Token.sym c :: ts2) =
        shuntGo (out ++ o1 ++ (popWhileGE c (P1 ++ S)).1.map Token.sym)
          (c :: (popWhileGE c (P1 ++ S)).2) ts2 from by simp [shuntGo, hvc]]
    rw [popWhileGE_low c hprec P1 hp1 S hS]
    have hS2 : stackOK 1 (c :: S) := by
      rcases hc with rfl | rfl
      · exact Or.inr (Or.inl ⟨S, rfl⟩)
      · exact Or.inr (Or.inr ⟨S, rfl⟩)
    obtain ⟨o2, P2, he2, ho2, hp2⟩ := ih2 (out ++ o1 ++ P1.map Token.sym) (c :: S) hS2
    rw [he2]
    refine ⟨o1 ++ P1.map Token.sym ++ o2, P2 ++ [c], ?_, ?_, ?_⟩
    · simp
    · rw [show postfixOf (ASTNode.binaryOperationNode l r c) =
        postfixOf l ++ postfixOf r ++ [Token.sym c] from rfl]
      rw [← ho1, ← ho2]
      simp
    · intro x hx
      rcases List.mem_append.mp hx with hx | hx
      · exact (hp2 x hx).1
      · rw [List.mem_singleton.mp hx]
        exact hvc
  | mulOp ts1 l ts2 r c hc h1 h2 ih1 ih2 =>
    intro out S hS
    have hprec : precedence c = 2 := by rcases hc with rfl | rfl <;> rfl
    have hvc : isVaildOp c = true := by rcases hc with rfl | rfl <;> rfl
    rw [shuntGo_append]
    obtain ⟨o1, P1, he1, ho1, hp1⟩ := ih1 out S hS
    rw [he1]
    rw [show shuntGo (out ++ o1) (P1 ++ S) (Token.sym c :: ts2) =
        shuntGo (out ++ o1 ++ (popWhileGE c (P1 ++ S)).1.map Token.sym)
          (c :: (popWhileGE c (P1 ++ S)).2) ts2 from by simp [shuntGo, hvc]]
    rw [popWhileGE_high c hprec P1 hp1 S hS]
    obtain ⟨o2, P2, he2, ho2, hp2⟩ := ih2 (out ++ o1 ++ P1.map Token.sym) (c :: S) trivial
    have hP2 : P2 = [] := hp2
    subst hP2
    rw [he2]
    refine ⟨o1 ++ P1.map Token.sym ++ o2, [c], ?_, ?_, ?_⟩
    · simp
    · rw [show postfixOf (ASTNode.binaryOperationNode l r c) =
        postfixOf l ++ postfixOf r ++ [Token.sym c] from rfl]
      rw [← ho1, ← ho2]
      simp
    · intro x hx
      rw [List.mem_singleton.mp hx]
      exact ⟨hvc, hprec⟩

theorem shunt_spec {ts : List Token} {t : ASTNode} (h : SpecReads 0 ts t) :
    shunt ts = postfixOf t := by
  obtain ⟨o, P, he, ho, hp⟩ := shuntGo_spec h [] [] (Or.inl rfl)
  simp only [shunt]
  rw [he]
  simpa using ho

theorem buildGo_append (ts1 : List Token) : ∀ (ts2 : List Token) (stack : List ASTNode),
    buildGo stack (ts1 ++ ts2) =
      match buildGo stack ts1 with
      | .ok st => buildGo st ts2
      | .error e => .error e := by
  induction ts1 with
  | nil =>
    intro ts2 stack
    rfl
  | cons tk ts1 ih =>
    intro ts2 stack
    cases tk with
    | num n => exact ih ts2 (.numberNode n :: stack)
    | sym c =>
      rcases stack with _ | ⟨r, _ | ⟨l, rest⟩⟩
      · rfl
      · rfl
      · exact ih ts2 (.binaryOperationNode l r c :: rest)

theorem buildGo_rpn (t : ASTNode) : ∀ stack : List ASTNode,
    buildGo stack (postfixOf t) = .ok (t :: stack) := by
  induction t with
  | numberNode n =>
    intro stack
    rfl
  | binaryOperationNode l r c ihl ihr =>
    intro stack
    rw [show postfixOf (ASTNode.binaryOperationNode l r c) =
      postfixOf l ++ (postfixOf r ++ [Token.sym c]) from by simp [postfixOf]]
    rw [buildGo_append, ihl]
    rw [show (match (Except.ok (l :: stack) : Except Err (List ASTNode)) with
        | .ok st => buildGo st (postfixOf r ++ [Token.sym c])
        | .error e => .error e) = buildGo (l :: stack) (postfixOf r ++ [Token.sym c]) from rfl]
    rw [buildGo_append, ihr]
    rfl

theorem buildAST_shunt {ts : List Token} {t : ASTNode} (h : SpecReads 0 ts t) :
    buildAST (shunt ts) = .ok t := by
  rw [shunt_spec h]
  unfold buildAST
  rw [buildGo_rpn t []]

theorem evaluate_exact (t : ASTNode) : ∀ q : ℚ, exactEval t = some q →
    evaluate t = .ok (.num (.fin q)) := by
  induction t with
  | numberNode v =>
    intro q h
    cases v with
    | fin x =>
      simp [exactEval] at h
      subst h
      rfl
    | inf => simp [exactEval] at h
    | negInf => simp [exactEval] at h
    | nan => simp [exactEval] at h
  | binaryOperationNode l r c ihl ihr =>
    intro q h
    cases hl : exactEval l with
    | none => simp [exactEval, hl] at h
    | some a =>
      cases hr : exactEval r with
      | none => simp [exactEval, hl, hr] at h
      | some b =>
        simp only [exactEval, hl, hr] at h
        have Hl := ihl a hl
        have Hr := ihr b hr
        by_cases h1 : c = '+'
        · subst h1
          simp only [if_pos rfl] at h
          have heq : evaluate (ASTNode.binaryOperationNode l r '+') =
              .ok (.num (.fin (qAdd a b))) := by
            simp [evaluate, Hl, Hr, toNumber, jsAdd]
          rw [heq, qAdd_eq]
          injection h with h
          rw [h]
        · rw [if_neg h1] at h
          by_cases h2 : c = '-'
          · subst h2
            simp only [if_pos rfl] at h
            have heq : evaluate (ASTNode.binaryOperationNode l r '-') =
                .ok (.num (.fin (qSub a b))) := by
              simp [evaluate, Hl, Hr, toNumber, jsSub]
            rw [heq, qSub_eq]
            injection h with h
            rw [h]
          · rw [if_neg h2] at h
            by_cases h3 : c = '*'
            · subst h3
              simp only [if_pos rfl] at h
              have heq : evaluate (ASTNode.binaryOperationNode l r '*') =
                  .ok (.num (.fin (qMul a b))) := by
                simp [evaluate, Hl, Hr, toNumber, jsMul]
              rw [heq, qMul_eq]
              injection h with h
              rw [h]
            · rw [if_neg h3] at h
              by_cases h4 : c = '/'
              · subst h4
                simp only [if_pos rfl] at h
                by_cases hb : b = 0
                · rw [if_pos hb] at h
                  cases h
                · rw [if_neg hb] at h
                  have hguard : Value.num (.fin b) ≠ Value.num (.fin 0) := by
                    intro hh
                    apply hb
                    have := congrArg (fun v => match v with
                      | Value.num (.fin x) => x
                      | _ => (0 : ℚ)) hh
                    simpa using this
                  have heq : evaluate (ASTNode.binaryOperationNode l r '/') =
                      .ok (.num (jsDiv (.fin a) (.fin b))) := by
                    simp [evaluate, Hl, Hr, toNumber, hguard]
                  rw [heq]
                  rw [show jsDiv (.fin a) (.fin b) = .fin (qDiv a b) from by
                    simp [jsDiv, hb]]
                  rw [qDiv_eq]
                  injection h with h
                  rw [h]
              · rw [if_neg h4] at h
                cases h

theorem isValidGo_proj (cs : List Char) : ∀ st : List Char,
    isValidGo cs st = isValidGo (parenProj cs) st := by
  induction cs with
  | nil =>
    intro st
    rfl
  | cons c cs ih =>
    intro st
    by_cases ho : c = '('
    · subst ho
      rw [show parenProj ('(' :: cs) = '(' :: parenProj cs from by simp [parenProj]]
      rw [show isValidGo ('(' :: cs) st = isValidGo cs ('(' :: st) from by simp [isValidGo]]
      rw [show isValidGo ('(' :: parenProj cs) st =
        isValidGo (parenProj cs) ('(' :: st) from by simp [isValidGo]]
      exact ih _
    · by_cases hc : c = ')'
      · subst hc
        rw [show parenProj (')' :: cs) = ')' :: parenProj cs from by simp [parenProj]]
        cases st with
        | nil => simp [isValidGo]
        | cons top rest =>
          by_cases ht : top = '('
          · subst ht
            rw [show isValidGo (')' :: cs) ('(' :: rest) = isValidGo cs rest from by
              simp [isValidGo]]
            rw [show isValidGo (')' :: parenProj cs) ('(' :: rest) =
              isValidGo (parenProj cs) rest from by simp [isValidGo]]
            exact ih _
          · rw [show isValidGo (')' :: cs) (top :: rest) = false from by
              simp [isValidGo, ht]]
            rw [show isValidGo (')' :: parenProj cs) (top :: rest) = false from by
              simp [isValidGo, ht]]
      · rw [show parenProj (c :: cs) = parenProj cs from by simp [parenProj, ho, hc]]
        rw [show isValidGo (c :: cs) st = isValidGo cs st from by simp [isValidGo, ho, hc]]
        exact ih st

theorem numChar_not_paren (c : Char) (h : isNumChar c = true) :
    ((c = '(' : Bool) || (c = ')' : Bool)) = false := by
  cases hp : ((c = '(' : Bool) || (c = ')' : Bool))
  · rfl
  · exfalso
    simp at hp
    rcases hp with rfl | rfl <;> simp [isNumChar] at h

theorem parenProjT_append (a b : List Token) :
    parenProjT (a ++ b) = parenProjT a ++ parenProjT b := by
  simp [parenProjT, parenProj]

theorem parenProjT_num (n : JSNum) (ts : List Token) :
    parenProjT (.num n :: ts) = parenProjT ts := by
  simp [parenProjT, parenProj, tokChars]

theorem parenProjT_sym (c : Char) (ts : List Token) :
    parenProjT (.sym c :: ts) =
      (if (c = '(' : Bool) || (c = ')' : Bool) then c :: parenProjT ts else parenProjT ts) := by
  simp only [parenProjT, parenProj, tokChars]
  rw [show (Token.sym c :: ts).flatMap tokChars = c :: ts.flatMap tokChars from by
    simp [tokChars]]
  rw [List.filter_cons]

theorem tokenizeGo_proj (cs : List Char) : ∀ (i : ℕ) (acc : List Char) (ts : List Token),
    tokenizeGo cs i acc = .ok ts → parenProj cs = parenProjT ts := by
  induction cs with
  | nil =>
    intro i acc ts h
    rcases acc with _ | ⟨a, as⟩
    · rw [show tokenizeGo [] i [] = .ok [] from rfl] at h
      injection h with h
      subst h
      rfl
    · rw [show tokenizeGo [] i (a :: as) =
        .ok [.num (parseRun ((a :: as).reverse))] from rfl] at h
      injection h with h
      subst h
      rw [parenProjT_num]
      rfl
  | cons c cs ih =>
    intro i acc ts h
    by_cases hc : isNumChar c = true
    · rw [show parenProj (c :: cs) = parenProj cs from by
        unfold parenProj
        rw [List.filter_cons_of_neg]
        simp [numChar_not_paren c hc]]
      rw [show tokenizeGo (c :: cs) i acc = tokenizeGo cs (i + 1) (c :: acc) from by
        simp [tokenizeGo, hc]] at h
      exact ih _ _ _ h
    · by_cases hs : isSymChar c = true
      · rcases acc with _ | ⟨a, as⟩
        · rw [show tokenizeGo (c :: cs) i [] =
              (tokenizeGo cs (i + 1) []).map (fun l => .sym c :: l) from by
            simp [tokenizeGo, hc, hs]] at h
          cases hin : tokenizeGo cs (i + 1) [] with
          | error f =>
            rw [hin] at h
            simp [Except.map] at h
          | ok ts0 =>
            rw [hin] at h
            simp only [Except.map] at h
            injection h with h
            subst h
            rw [parenProjT_sym]
            rw [show parenProj (c :: cs) =
              (if (c = '(' : Bool) || (c = ')' : Bool) then c :: parenProj cs
                else parenProj cs) from by
              simp only [parenProj, List.filter_cons]]
            rw [ih _ _ _ hin]
        · rw [show tokenizeGo (c :: cs) i (a :: as) =
              ((tokenizeGo cs (i + 1) []).map (fun l => .sym c :: l)).map
                (fun l => .num (parseRun ((a :: as).reverse)) :: l) from by
            simp [tokenizeGo, hc, hs]] at h
          cases hin : tokenizeGo cs (i + 1) [] with
          | error f =>
            rw [hin] at h
            simp [Except.map] at h
          | ok ts0 =>
            rw [hin] at h
            simp only [Except.map] at h
            injection h with h
            subst h
            rw [parenProjT_num, parenProjT_sym]
            rw [show parenProj (c :: cs) =
              (if (c = '(' : Bool) || (c = ')' : Bool) then c :: parenProj cs
                else parenProj cs) from by
              simp only [parenProj, List.filter_cons]]
            rw [ih _ _ _ hin]
      · rcases acc with _ | ⟨a, as⟩
        · rw [show tokenizeGo (c :: cs) i [] = .error (.unexpectedToken c i) from by
            simp [tokenizeGo, hc, hs]] at h
          cases h
        · rw [show tokenizeGo (c :: cs) i (a :: as) =
              (Except.error (.unexpectedToken c i)).map
                (fun l => .num (parseRun ((a :: as).reverse)) :: l) from by
            simp [tokenizeGo, hc, hs]] at h
          simp [Except.map] at h

theorem opens_append (a b : List Char) : opens (a ++ b) = opens a + opens b := by
  simp [opens, List.count_append]

theorem closes_append (a b : List Char) : closes (a ++ b) = closes a + closes b := by
  simp [closes, List.count_append]

theorem BalancedP_nil : BalancedP [] :=
  ⟨fun p hp => by rw [List.prefix_nil.mp hp]; exact le_rfl, rfl⟩

theorem BalancedP_append (a b : List Char) (ha : BalancedP a) (hb : BalancedP b) :
    BalancedP (a ++ b) := by
  obtain ⟨hpa, hta⟩ := ha
  obtain ⟨hpb, htb⟩ := hb
  refine ⟨?_, by rw [opens_append, closes_append]; omega⟩
  intro p hp
  rcases prefix_append_cases p a b hp with hp | ⟨r, rfl, hr⟩
  · exact hpa p hp
  · have h1 := hpb r hr
    rw [opens_append, closes_append]
    omega

theorem BalancedP_wrap (a : List Char) (ha : BalancedP a) :
    BalancedP ('(' :: a ++ [')']) := by
  obtain ⟨hpa, hta⟩ := ha
  have hc1 : closes [')'] = 1 := by decide
  have ho1 : opens [')'] = 0 := by decide
  constructor
  · intro p hp
    rcases List.prefix_cons_iff.mp hp with rfl | ⟨q, rfl, hq⟩
    · simp [opens_nil, closes_nil]
    · have h3 : opens ('(' :: q) = opens q + 1 := opens_cons_open q
      have h4 : closes ('(' :: q) = closes q := closes_cons_ne _ _ (by decide)
      rcases prefix_append_cases q a [')'] hq with hq | ⟨r, rfl, hr⟩
      · have := hpa q hq
        omega
      · have hro : opens r = 0 ∧ closes r ≤ 1 := by
          have : r = [] ∨ r = [')'] := by
            cases List.prefix_cons_iff.mp hr with
            | inl h => exact Or.inl h
            | inr h =>
              obtain ⟨q2, rfl, hq2⟩ := h
              rw [List.prefix_nil.mp hq2]
              exact Or.inr rfl
          rcases this with rfl | rfl
          · simp [opens_nil, closes_nil]
          · rw [ho1, hc1]
            omega
        rw [h3, h4, opens_append, closes_append]
        omega
  · rw [show ('(' :: a ++ [')']) = '(' :: (a ++ [')']) from rfl, opens_cons_open,
      closes_cons_ne _ _ (by decide), opens_append, closes_append, ho1, hc1]
    omega

theorem specReads_balanced {lvl : ℕ} {ts : List Token} {t : ASTNode}
    (h : SpecReads lvl ts t) : BalancedP (parenProjT ts) := by
  induction h with
  | num n =>
    rw [show parenProjT [Token.num n] = [] from rfl]
    exact BalancedP_nil
  | paren ts t h ih =>
    rw [show (Token.sym '(' :: ts ++ [Token.sym ')']) =
      Token.sym '(' :: (ts ++ [Token.sym ')']) from rfl]
    rw [parenProjT_sym]
    rw [if_pos (by decide)]
    rw [parenProjT_append]
    rw [show parenProjT [Token.sym ')'] = [')'] from rfl]
    exact BalancedP_wrap _ ih
  | tOfF ts t h ih => exact ih
  | eOfT ts t h ih => exact ih
  | addOp ts1 l ts2 r c hc h1 h2 ih1 ih2 =>
    rw [parenProjT_append, parenProjT_sym]
    rw [if_neg (by rcases hc with rfl | rfl <;> decide)]
    exact BalancedP_append _ _ ih1 ih2
  | mulOp ts1 l ts2 r c hc h1 h2 ih1 ih2 =>
    rw [parenProjT_append, parenProjT_sym]
    rw [if_neg (by rcases hc with rfl | rfl <;> decide)]
    exact BalancedP_append _ _ ih1 ih2

theorem specReads_isValid {e : String} {toks : List Token} {t : ASTNode}
    (htok : tokenize (stripWS e) = .ok toks) (h : SpecReads 0 toks t) :
    isValid (stripWS e) = true := by
  rw [isValid, isValidGo_proj, tokenizeGo_proj (stripWS e).data 0 [] toks htok]
  have hb := specReads_balanced h
  have hv := (isValidGo_replicate (parenProjT toks) 0).mpr
    ⟨fun p hp => by simpa using hb.1 p hp, by simpa using hb.2⟩
  simpa using hv

/-- C2: the parser agrees with the spec's precedence grammar — whenever the
token stream of the stripped input has a reading `t` under the left-associative
precedence grammar (`SpecReads`), `parse` returns exactly `t`; evaluating any
tree whose exact rational evaluation is defined yields that exact value; and
`parse("3 + 4 * 2 / (1 - 5) + 7").evaluate()` equals `8`. -/
theorem parse_evaluates_correctly :
    (∀ (e : String) (toks : List Token) (t : ASTNode),
      tokenize (stripWS e) = .ok toks → SpecReads 0 toks t → parse e = .ok t) ∧
    (∀ (t : ASTNode) (q : ℚ), exactEval t = some q → evaluate t = .ok (.num (.fin q))) ∧
    parse "3 + 4 * 2 / (1 - 5) + 7" = .ok (.binaryOperationNode
      (.binaryOperationNode (.numberNode (.fin 3))
        (.binaryOperationNode
          (.binaryOperationNode (.numberNode (.fin 4)) (.numberNode (.fin 2)) '*')
          (.binaryOperationNode (.numberNode (.fin 1)) (.numberNode (.fin 5)) '-') '/') '+')
      (.numberNode (.fin 7)) '+') ∧
    evaluate (.binaryOperationNode
      (.binaryOperationNode (.numberNode (.fin 3))
        (.binaryOperationNode
          (.binaryOperationNode (.numberNode (.fin 4)) (.numberNode (.fin 2)) '*')
          (.binaryOperationNode (.numberNode (.fin 1)) (.numberNode (.fin 5)) '-') '/') '+')
      (.numberNode (.fin 7)) '+') = .ok (.num (.fin 8)) := by
  refine ⟨?_, fun t q h => evaluate_exact t q h, by decide, by decide⟩
  intro e toks t htok hread
  have hval := specReads_isValid htok hread
  simp only [parse, hval, Bool.not_true, Bool.false_eq_true, if_false]
  rw [htok]
  exact buildAST_shunt hread

/-- Witness for C2 at the input `"1 + 2"`, whose grammar reading is
`(1 + 2)` with exact value `3`. -/
theorem parse_evaluates_correctly_witness :
    parse "1 + 2" =
      .ok (.binaryOperationNode (.numberNode (.fin 1)) (.numberNode (.fin 2)) '+') ∧
    evaluate (.binaryOperationNode (.numberNode (.fin 1)) (.numberNode (.fin 2)) '+') =
      .ok (.num (.fin 3)) := by
  constructor
  · apply parse_evaluates_correctly.1 "1 + 2"
      [Token.num (.fin 1), Token.sym '+', Token.num (.fin 2)]
    · decide
    · have h1 : SpecReads 0 [Token.num (.fin 1)] (.numberNode (.fin 1)) :=
        .eOfT _ _ (.tOfF _ _ (.num _))
      have h2 : SpecReads 1 [Token.num (.fin 2)] (.numberNode (.fin 2)) :=
        .tOfF _ _ (.num _)
      exact SpecReads.addOp [Token.num (.fin 1)] _ [Token.num (.fin 2)] _ '+'
        (Or.inl rfl) h1 h2
  · apply parse_evaluates_correctly.2.1 _ 3
    norm_num [exactEval]
